import Mathlib

/-!
Verification of the AnimalClassifying training pipeline
(`classification_train.py`, `classification_models.py`).

The Python source is shallowly embedded: the validation-loop metric
computations (`sklearn.metrics.accuracy_score`, `confusion_matrix` as called
with integer label lists), the checkpoint save/resume logic, the
`MultiStepLR` learning-rate schedule, the tensorboard-directory setup, and
the shape semantics of the `CNN` network are translated into executable
Lean definitions, and the spec's claims are proved about them.
-/

set_option maxHeartbeats 1000000

namespace AnimalClassifying

/-! ## Validation metrics (classification_train.py, lines 150-161)

The validation loop accumulates ground-truth labels and argmax predictions
over all batches, then calls `sklearn.metrics.accuracy_score` and
`sklearn.metrics.confusion_matrix` on the accumulated integer lists.
The two sklearn functions are embedded with their documented semantics for
integer label lists of equal length (the only way the script calls them). -/

/-- Number of aligned positions where the two label lists agree. -/
def countMatches (gts preds : List Nat) : Nat :=
  (gts.zip preds).countP (fun p => p.1 == p.2)

/-- `sklearn.metrics.accuracy_score(y_true, y_pred)` with default
`normalize=True`: fraction of exactly matching positions. -/
def accuracy_score (gts preds : List Nat) : Rat :=
  (countMatches gts preds : Rat) / (gts.length : Rat)

/-- The sorted list of distinct labels occurring in either argument;
`sklearn.metrics.confusion_matrix` indexes its rows and columns by this
list when no explicit `labels` argument is passed. -/
def classLabels (gts preds : List Nat) : List Nat :=
  (List.range ((gts ++ preds).foldr max 0 + 1)).filter
    (fun c => decide (c ∈ gts ++ preds))

/-- Number of positions with ground truth `a` and prediction `c`. -/
def countGtPred (gts preds : List Nat) (a c : Nat) : Nat :=
  (gts.zip preds).countP (fun p => p.1 == a && p.2 == c)

/-- `sklearn.metrics.confusion_matrix(y_true, y_pred)`: entry `(i, j)` counts
samples with true label `labels[i]` and predicted label `labels[j]`, where
`labels` is the sorted union of observed labels. -/
def confusion_matrix (gts preds : List Nat) : List (List Nat) :=
  (classLabels gts preds).map (fun a =>
    (classLabels gts preds).map (fun c => countGtPred gts preds a c))

/-- Trace of an integer matrix given as a list of rows. -/
def matrixTrace (m : List (List Nat)) : Nat :=
  ((List.range m.length).map (fun k => (m.getD k []).getD k 0)).sum

/-- `torch.argmax(v)` on a one-dimensional tensor: index of the first
maximal entry. -/
def argmaxGo : List Rat → Rat → Nat → Nat → Nat
  | [], _, bi, _ => bi
  | y :: ys, m, bi, i => if m < y then argmaxGo ys y i (i + 1) else argmaxGo ys m bi (i + 1)

/-- `torch.argmax(predictions, 1)` applied to one row of logits. -/
def argmax (v : List Rat) : Nat :=
  match v with
  | [] => 0
  | x :: xs => argmaxGo xs x 0 1

/-- One validation batch: the ground-truth labels and the per-sample logit
rows produced by the forward pass. -/
structure ValBatch where
  labels : List Nat
  logits : List (List Rat)
  deriving DecidableEq

/-- The accumulation loop of classification_train.py lines 143-155:
`all_gts.extend(labels.tolist())`;
`all_predictions.extend(max_idx.tolist())` for each batch in order. -/
def valLoop (bs : List ValBatch) : List Nat × List Nat :=
  bs.foldl (fun acc b => (acc.1 ++ b.labels, acc.2 ++ b.logits.map argmax)) ([], [])

/-- Line 158: `acc = accuracy_score(all_gts, all_predictions)`. -/
def reportedAcc (bs : List ValBatch) : Rat :=
  accuracy_score (valLoop bs).1 (valLoop bs).2

/-- All ground-truth labels of a batch list, flattened in order. -/
def joinedLabels (bs : List ValBatch) : List Nat :=
  (bs.map ValBatch.labels).flatten

/-- All argmax predictions of a batch list, flattened in order. -/
def joinedPredictions (bs : List ValBatch) : List Nat :=
  (bs.map (fun b => b.logits.map argmax)).flatten

/-- Total number of validation samples across all batches. -/
def totalSamples (bs : List ValBatch) : Nat :=
  (bs.map (fun b => b.labels.length)).sum

/-! ## Checkpointing (classification_train.py, lines 98-106 and 163-175)

At the end of epoch `e` the script builds one checkpoint record
`{"epoch": e, "best_acc": best_acc, ...}` (lines 163-169), always saves it
to `last.pt`, saves the same record to `best.pt` when `acc > best_acc`, and
only then updates `best_acc` (lines 171-174).  Only the fields the claims
speak about (`epoch`, `best_acc`) are carried in the model; the model and
optimizer state snapshots are opaque to every claim. -/

/-- The claim-relevant fields of the saved checkpoint dictionary. -/
structure Checkpoint where
  epoch : Nat
  best_acc : Rat
  deriving DecidableEq

/-- A file write performed at the end of an epoch: `last.pt` or `best.pt`. -/
inductive FsEvent
  | writeLast (cp : Checkpoint)
  | writeBest (cp : Checkpoint)
  deriving DecidableEq

/-- Line 172-174: the running best after comparing with this epoch's
validation accuracy. -/
def epochNewBest (best acc : Rat) : Rat := if best < acc then acc else best

/-- The checkpoint writes of one epoch end (lines 163-173): `last.pt`
unconditionally, then `best.pt` exactly when `acc > best_acc`; both writes
store the record built before `best_acc` is updated. -/
def epochEvents (epoch : Nat) (best acc : Rat) : List FsEvent :=
  FsEvent.writeLast ⟨epoch, best⟩
    :: (if best < acc then [FsEvent.writeBest ⟨epoch, best⟩] else [])

/-- The per-epoch checkpoint writes of a whole run, given the first epoch
index, the initial running best, and each epoch's validation accuracy. -/
def runTrace : Nat → Rat → List Rat → List (List FsEvent)
  | _, _, [] => []
  | e, b, a :: rest => epochEvents e b a :: runTrace (e + 1) (epochNewBest b a) rest

/-- The running best after folding a list of epoch accuracies into an
initial best, exactly as the loop threads `best_acc`. -/
def recordedBest (b0 : Rat) (accs : List Rat) : Rat := accs.foldl epochNewBest b0

/-! ## Resuming (classification_train.py, lines 98-106) -/

/-- Lines 98-106: when a checkpoint path is given and resolves to a file,
start at the saved epoch plus one with the saved best accuracy; otherwise
start at epoch 0 with best accuracy 0.  `fileAt` models `os.path.isfile`
together with `torch.load`. -/
def resumeInit (checkpointPath : Option String)
    (fileAt : String → Option Checkpoint) : Nat × Rat :=
  match checkpointPath with
  | some p =>
      match fileAt p with
      | some checkpoint => (checkpoint.epoch + 1, checkpoint.best_acc)
      | none => (0, 0)
  | none => (0, 0)

/-- `torch.save(checkpoint, p)`: the file system after writing `cp` at `p`. -/
def saveAt (fileAt : String → Option Checkpoint) (p : String) (cp : Checkpoint) :
    String → Option Checkpoint :=
  fun q => if q = p then some cp else fileAt q

/-! ## Learning-rate schedule (classification_train.py, lines 95-96 and 175)

`MultiStepLR(optimizer, milestones=[30, 60, 90], gamma=0.1)` is constructed
fresh at every run start; `scheduler.step()` runs once at the very end of
each epoch body, after the checkpoint writes and regardless of the epoch's
validation outcome.  Its semantics: the step advances the internal epoch
counter and multiplies the current learning rate by `gamma` exactly when
the new counter value is a milestone. -/

def milestones : List Nat := [30, 60, 90]

/-- The scheduler's state: its internal epoch counter and the optimizer's
current learning rate. -/
structure SchedState where
  lastEpoch : Nat
  lr : Rat
  deriving DecidableEq

/-- One `scheduler.step()` call. -/
def schedStep (s : SchedState) : SchedState :=
  { lastEpoch := s.lastEpoch + 1
    lr := if s.lastEpoch + 1 ∈ milestones then s.lr * ((1 : Rat) / 10) else s.lr }

/-- Scheduler state right after construction at line 96. -/
def schedInit (lr0 : Rat) : SchedState := ⟨0, lr0⟩

/-- The per-run mutable state the epoch loop threads: the running best
accuracy and the scheduler state. -/
structure RunState where
  best : Rat
  sched : SchedState

/-- The tail of one epoch body: update the running best from this epoch's
validation accuracy (lines 172-174), then `scheduler.step()` (line 175). -/
def epochUpdate (st : RunState) (acc : Rat) : RunState :=
  { best := epochNewBest st.best acc, sched := schedStep st.sched }

/-- The run state after completing one epoch per accuracy in `accs`. -/
def runState (b0 lr0 : Rat) (accs : List Rat) : RunState :=
  accs.foldl epochUpdate ⟨b0, schedInit lr0⟩

/-! ## Output directories (classification_train.py, lines 108-112) -/

/-- `shutil.rmtree`: drop the directory entry (flat directory model: each
path maps to its contents, `none` meaning absent). -/
def rmtree (fs : String → Option (List String)) (p : String) :
    String → Option (List String) :=
  fun q => if q = p then none else fs q

/-- `os.mkdir`: create the directory empty. -/
def mkdir (fs : String → Option (List String)) (p : String) :
    String → Option (List String) :=
  fun q => if q = p then some [] else fs q

/-- Lines 108-109: `if os.path.isdir(tensorboard_path): shutil.rmtree(...)`. -/
def afterRmtree (fs : String → Option (List String)) (tb : String) :
    String → Option (List String) :=
  if (fs tb).isSome then rmtree fs tb else fs

/-- Line 110: `os.mkdir(tensorboard_path)` after the conditional delete. -/
def afterMkdirTb (fs : String → Option (List String)) (tb : String) :
    String → Option (List String) :=
  mkdir (afterRmtree fs tb) tb

/-- Lines 108-112: the state of the directories at the end of run start:
delete-and-recreate the tensorboard directory, then create the
trained-models directory only if absent. -/
def runStartDirSetup (fs : String → Option (List String)) (tb trained : String) :
    String → Option (List String) :=
  if ((afterMkdirTb fs tb) trained).isSome then afterMkdirTb fs tb
  else mkdir (afterMkdirTb fs tb) trained

/-! ## Network shape semantics (classification_models.py)

The `CNN` module is embedded as the list of its layers together with a
shape semantics: each layer either maps an input shape to its output shape
or fails (`none`), modelling the runtime shape-mismatch error.  `Conv2d`
with kernel `k` and padding `p` maps spatial size `n` to `n + 2p - k + 1`
and `MaxPool2d` maps `n` to `n / k`, as in torch. -/

inductive Layer
  | conv2d (inChannels outChannels kernel padding : Nat)
  | batchNorm2d (features : Nat)
  | leakyReLU
  | maxPool2d (kernel : Nat)
  | dropout (p : Rat)
  | linear (inFeatures outFeatures : Nat)
  | softmax
  deriving DecidableEq

/-- `CNN.make_block(in_channels, out_channels)` (lines 29-38):
two unpadded 3x3 convolutions, each followed by batch norm and LeakyReLU,
then a 2x2 max pool. -/
def make_block (inChannels outChannels : Nat) : List Layer :=
  [Layer.conv2d inChannels outChannels 3 0,
   Layer.batchNorm2d outChannels,
   Layer.leakyReLU,
   Layer.conv2d outChannels outChannels 3 0,
   Layer.batchNorm2d outChannels,
   Layer.leakyReLU,
   Layer.maxPool2d 2]

def conv1 : List Layer := make_block 3 16
def conv2 : List Layer := make_block 16 32
def conv3 : List Layer := make_block 32 64
def conv4 : List Layer := make_block 64 64

def fc1 : List Layer :=
  [Layer.dropout ((1 : Rat) / 2), Layer.linear 5184 1024, Layer.leakyReLU]
def fc2 : List Layer :=
  [Layer.dropout ((1 : Rat) / 2), Layer.linear 1024 512, Layer.leakyReLU]
def fc3 (num_classes : Nat) : List Layer :=
  [Layer.dropout ((1 : Rat) / 2), Layer.linear 512 num_classes]

/-- The convolutional part of `forward`, in application order. -/
def cnnConvLayers : List Layer := conv1 ++ (conv2 ++ (conv3 ++ conv4))

/-- The dense part of `forward`, in application order. -/
def cnnDenseLayers (num_classes : Nat) : List Layer :=
  fc1 ++ (fc2 ++ fc3 num_classes)

/-- Every layer of the network, in application order. -/
def cnnLayers (num_classes : Nat) : List Layer :=
  cnnConvLayers ++ cnnDenseLayers num_classes

/-- A batched 4-D activation shape (N, C, H, W). -/
structure Shape4 where
  batch : Nat
  channels : Nat
  height : Nat
  width : Nat
  deriving DecidableEq

/-- Shape action of one layer on a 4-D activation. -/
def convLayerShape : Layer → Shape4 → Option Shape4
  | Layer.conv2d ic oc k p, ⟨b, c, h, w⟩ =>
      if c = ic ∧ k ≤ h + 2 * p ∧ k ≤ w + 2 * p then
        some ⟨b, oc, h + 2 * p - k + 1, w + 2 * p - k + 1⟩
      else none
  | Layer.batchNorm2d f, ⟨b, c, h, w⟩ => if c = f then some ⟨b, c, h, w⟩ else none
  | Layer.leakyReLU, s => some s
  | Layer.maxPool2d k, ⟨b, c, h, w⟩ =>
      if k ≤ h ∧ k ≤ w then some ⟨b, c, h / k, w / k⟩ else none
  | Layer.dropout _, s => some s
  | Layer.softmax, s => some s
  | Layer.linear _ _, _ => none

/-- Shape action of one layer on a flattened (batch, features) activation. -/
def denseLayerShape : Layer → Nat × Nat → Option (Nat × Nat)
  | Layer.dropout _, s => some s
  | Layer.leakyReLU, s => some s
  | Layer.linear inF outF, s => if s.2 = inF then some (s.1, outF) else none
  | Layer.softmax, s => some s
  | _, _ => none

def runConv : List Layer → Shape4 → Option Shape4
  | [], s => some s
  | l :: ls, s =>
      match convLayerShape l s with
      | none => none
      | some t => runConv ls t

def runDense : List Layer → Nat × Nat → Option (Nat × Nat)
  | [], s => some s
  | l :: ls, s =>
      match denseLayerShape l s with
      | none => none
      | some t => runDense ls t

/-- `CNN.forward` (lines 40-50): the four blocks, then
`x.view(x.shape[0], -1)`, then the three dense heads. -/
def cnnForwardShape (num_classes : Nat) (s : Shape4) : Option (Nat × Nat) :=
  (runConv cnnConvLayers s).bind fun t =>
    runDense (cnnDenseLayers num_classes) (t.batch, t.channels * t.height * t.width)

/-- The spatial size after the four blocks, for a square input of side `n`:
each block maps `n` to `(n - 4) / 2`. -/
def convOutSize (n : Nat) : Nat :=
  ((((n - 4) / 2 - 4) / 2 - 4) / 2 - 4) / 2

/-- A concrete two-batch run exercising `val_loop_accuracy`: batch one is
fully correct, batch two fully wrong, so the reported accuracy is 1/2. -/
def valBatchesW : List ValBatch :=
  [⟨[0, 1], [[2, 1], [0, 3]]⟩, ⟨[1, 0], [[5, 1], [2, 7]]⟩]

end AnimalClassifying

namespace AnimalClassifying

/-- The accumulation fold concatenates batch-wise; stated with general
initial accumulators so that induction goes through. -/
theorem valLoop_go (bs : List ValBatch) :
    ∀ g0 p0 : List Nat,
      bs.foldl (fun acc b => (acc.1 ++ b.labels, acc.2 ++ b.logits.map argmax)) (g0, p0)
        = (g0 ++ joinedLabels bs, p0 ++ joinedPredictions bs) := by
  induction bs with
  | nil => intro g0 p0; simp [joinedLabels, joinedPredictions]
  | cons b bs ih =>
      intro g0 p0
      simp only [List.foldl_cons, ih, joinedLabels, joinedPredictions, List.map_cons,
        List.flatten_cons, List.append_assoc]

/-- The loop's accumulated lists are exactly the flattened per-batch lists. -/
theorem valLoop_eq (bs : List ValBatch) :
    valLoop bs = (joinedLabels bs, joinedPredictions bs) := by
  simpa using valLoop_go bs [] []

theorem joinedLabels_length (bs : List ValBatch) :
    (joinedLabels bs).length = totalSamples bs := by
  simp only [joinedLabels, totalSamples, List.length_flatten, List.map_map]
  rfl

theorem countMatches_self (l : List Nat) : countMatches l l = l.length := by
  induction l with
  | nil => rfl
  | cons a l ih => simp [countMatches, List.zip_cons_cons, List.countP_cons] at ih ⊢; omega

/-- C1: the accuracy reported at line 158 equals the number of positions
where the argmax prediction equals the ground-truth label, divided by the
total number of validation samples accumulated over all batches; in the
degenerate all-correct case the reported accuracy is 1 and in the
all-incorrect case it is 0. -/
theorem val_loop_accuracy (bs : List ValBatch) (l g1 g2 : List Nat)
    (hl : l ≠ []) (h0 : countMatches g1 g2 = 0) :
    reportedAcc bs
        = (countMatches (joinedLabels bs) (joinedPredictions bs) : Rat)
            / (totalSamples bs : Rat)
    ∧ accuracy_score l l = 1 ∧ accuracy_score g1 g2 = 0 := by
  refine ⟨?_, ?_, ?_⟩
  · rw [reportedAcc, valLoop_eq, accuracy_score, joinedLabels_length]
  · rw [accuracy_score, countMatches_self]
    have hne : (l.length : Rat) ≠ 0 := by
      exact_mod_cast fun h => hl (List.length_eq_zero.mp (by exact_mod_cast h))
    exact div_self hne
  · rw [accuracy_score, h0]
    simp

theorem val_loop_accuracy_witness :
    reportedAcc valBatchesW = (1 : Rat) / 2
    ∧ accuracy_score [5, 5] [5, 5] = 1 ∧ accuracy_score [0, 1] [1, 0] = 0 := by
  have h := val_loop_accuracy valBatchesW [5, 5] [0, 1] [1, 0] (by decide) (by decide)
  refine ⟨h.1.trans ?_, h.2.1, h.2.2⟩
  have hm : countMatches (joinedLabels valBatchesW) (joinedPredictions valBatchesW) = 2 := by
    decide
  have ht : totalSamples valBatchesW = 4 := by decide
  rw [hm, ht]
  norm_num

theorem le_foldr_max (x : Nat) : ∀ l : List Nat, x ∈ l → x ≤ l.foldr max 0 := by
  intro l
  induction l with
  | nil => intro h; cases h
  | cons a l ih =>
      intro h
      rcases List.mem_cons.mp h with rfl | h
      · exact Nat.le_max_left _ _
      · exact Nat.le_trans (ih h) (Nat.le_max_right _ _)

theorem mem_classLabels (gts preds : List Nat) (x : Nat) (hx : x ∈ gts ++ preds) :
    x ∈ classLabels gts preds := by
  refine List.mem_filter.mpr ⟨List.mem_range.mpr ?_, by simpa using hx⟩
  exact Nat.lt_succ_of_le (le_foldr_max x _ hx)

theorem classLabels_nodup (gts preds : List Nat) : (classLabels gts preds).Nodup :=
  (List.nodup_range _).filter _

theorem sum_map_add_distrib (g h : Nat → Nat) : ∀ L : List Nat,
    (L.map (fun c => g c + h c)).sum = (L.map g).sum + (L.map h).sum := by
  intro L
  induction L with
  | nil => rfl
  | cons a L ih => simp [ih]; omega

theorem sum_map_indicator (x : Nat) : ∀ L : List Nat,
    (L.map (fun c => if x == c then 1 else 0)).sum = L.count x := by
  intro L
  induction L with
  | nil => rfl
  | cons a L ih =>
      rw [List.map_cons, List.sum_cons, ih, List.count_cons]
      by_cases h : x = a
      · subst h; simp [Nat.add_comm]
      · have hb : (x == a) = false := beq_eq_false_iff_ne.mpr h
        have hb' : (a == x) = false := beq_eq_false_iff_ne.mpr (Ne.symm h)
        rw [hb, hb']; simp

/-- Partitioning a `countP` over a duplicate-free list of key values. -/
theorem sum_countP_fiber (L : List Nat) (f : Nat × Nat → Bool) (key : Nat × Nat → Nat)
    (hN : L.Nodup) : ∀ Z : List (Nat × Nat), (∀ p ∈ Z, key p ∈ L) →
    (L.map (fun c => Z.countP (fun p => f p && (key p == c)))).sum = Z.countP f := by
  intro Z
  induction Z with
  | nil => intro _; simp
  | cons p Z ih =>
      intro hmem
      have hZ : ∀ q ∈ Z, key q ∈ L := fun q hq => hmem q (List.mem_cons_of_mem _ hq)
      simp only [List.countP_cons]
      rw [sum_map_add_distrib, ih hZ]
      congr 1
      by_cases hf : f p
      · have hkey : key p ∈ L := hmem p (List.mem_cons_self _ _)
        simp only [hf, Bool.true_and, if_true]
        rw [sum_map_indicator]
        exact List.count_eq_one_of_mem hN hkey
      · have hf' : f p = false := by simpa using hf
        simp [hf']

theorem countP_zip_fst (a : Nat) : ∀ (g p : List Nat), g.length = p.length →
    (g.zip p).countP (fun q => q.1 == a) = g.count a := by
  intro g
  induction g with
  | nil => intro p _; simp [List.count_nil]
  | cons x g ih =>
      intro p hp
      cases p with
      | nil => simp at hp
      | cons y p =>
          simp only [List.zip_cons_cons, List.countP_cons, List.count_cons,
            ih p (by simpa using hp)]

theorem sum_range_map (F : Nat → Nat) : ∀ L : List Nat,
    ((List.range L.length).map (fun k => F (L.getD k 0))).sum = (L.map F).sum := by
  intro L
  induction L with
  | nil => rfl
  | cons a L ih =>
      rw [List.length_cons, List.range_succ_eq_map, List.map_cons, List.map_map]
      simp only [Function.comp_def, List.getD_cons_zero, List.getD_cons_succ, List.sum_cons,
        List.map_cons]
      rw [ih]

/-- C5: on every validation epoch with equal-length accumulated label lists,
row `i` of the confusion matrix computed at line 160 sums to the number of
accumulated samples whose ground truth is the `i`-th observed class, and its
trace equals the number of positions where prediction equals ground truth. -/
theorem confusion_row_trace (gts preds : List Nat) (hlen : gts.length = preds.length)
    (i : Nat) (hi : i < (classLabels gts preds).length) :
    ((confusion_matrix gts preds).getD i []).sum
        = gts.count ((classLabels gts preds).getD i 0)
    ∧ matrixTrace (confusion_matrix gts preds) = countMatches gts preds := by
  set L := classLabels gts preds with hL
  have hrow : ∀ a : Nat,
      (L.map (fun c => countGtPred gts preds a c)).sum
        = gts.count a := by
    intro a
    have hfib := sum_countP_fiber L (fun q => q.1 == a) (fun q => q.2)
      (classLabels_nodup gts preds) (gts.zip preds)
      (by
        intro p hp
        obtain ⟨x, y⟩ := p
        exact mem_classLabels gts preds y
          (List.mem_append.mpr (Or.inr (List.of_mem_zip hp).2)))
    rw [show (fun c => countGtPred gts preds a c)
          = (fun c => (gts.zip preds).countP
              (fun p => (fun q => q.1 == a) p && ((fun q => q.2) p == c))) from rfl]
    rw [hfib]
    exact countP_zip_fst a gts preds hlen
  constructor
  · have hlm : i < (confusion_matrix gts preds).length := by
      simpa [confusion_matrix, ← hL] using hi
    rw [List.getD_eq_getElem _ _ hlm]
    simp only [confusion_matrix, ← hL, List.getElem_map]
    rw [hrow, List.getD_eq_getElem _ _ hi]
  · have hdiag : ∀ c : Nat, countGtPred gts preds c c
        = (gts.zip preds).countP (fun q => (q.1 == q.2) && (q.1 == c)) := by
      intro c
      refine List.countP_congr ?_
      intro q _
      simp only [Bool.and_eq_true, beq_iff_eq]
      omega
    have hfib := sum_countP_fiber L (fun q => q.1 == q.2) (fun q => q.1)
      (classLabels_nodup gts preds) (gts.zip preds)
      (by
        intro p hp
        obtain ⟨x, y⟩ := p
        exact mem_classLabels gts preds x
          (List.mem_append.mpr (Or.inl (List.of_mem_zip hp).1)))
    have hstep : ∀ k ∈ List.range L.length,
        ((confusion_matrix gts preds).getD k []).getD k 0
          = countGtPred gts preds (L.getD k 0) (L.getD k 0) := by
      intro k hk
      have hkL : k < L.length := List.mem_range.mp hk
      have hkm : k < (confusion_matrix gts preds).length := by
        simpa [confusion_matrix, ← hL] using hkL
      rw [List.getD_eq_getElem _ _ hkm]
      simp only [confusion_matrix, ← hL, List.getElem_map]
      have hkm2 : k < (L.map (fun c => countGtPred gts preds L[k] c)).length := by
        simpa using hkL
      rw [List.getD_eq_getElem _ _ hkm2, List.getElem_map,
        List.getD_eq_getElem _ _ hkL]
    have hlen2 : (confusion_matrix gts preds).length = L.length := by
      simp [confusion_matrix, ← hL]
    have h1 := sum_range_map (fun c => countGtPred gts preds c c) L
    have h2 : (L.map (fun c => countGtPred gts preds c c)).sum
        = List.countP (fun q => q.1 == q.2) (gts.zip preds) := by
      rw [List.map_congr_left (fun c _ => hdiag c)]
      exact hfib
    rw [matrixTrace, hlen2, List.map_congr_left hstep]
    exact h1.trans h2

theorem confusion_row_trace_witness :
    ((confusion_matrix [2, 0, 2, 1] [2, 2, 2, 0]).getD 2 []).sum = 2
    ∧ matrixTrace (confusion_matrix [2, 0, 2, 1] [2, 2, 2, 0]) = 2 := by
  have h := confusion_row_trace [2, 0, 2, 1] [2, 2, 2, 0] (by decide) 2 (by decide)
  exact ⟨h.1.trans (by decide), h.2.trans (by decide)⟩

/-- C4: on the 2-class, 4-sample validation epoch with accumulated ground
truth `[0,0,1,1]` and accumulated predictions `[0,1,1,1]`, line 158 computes
accuracy `0.75` and line 160 computes the confusion matrix `[[1,1],[0,2]]`. -/
theorem two_class_scenario :
    accuracy_score [0, 0, 1, 1] [0, 1, 1, 1] = (3 : Rat) / 4
    ∧ confusion_matrix [0, 0, 1, 1] [0, 1, 1, 1] = [[1, 1], [0, 2]] := by
  refine ⟨?_, by decide⟩
  have h1 : countMatches [0, 0, 1, 1] [0, 1, 1, 1] = 3 := by decide
  simp [accuracy_score, h1]

theorem take_succ_getD {α : Type} (l : List α) (k : Nat) (d : α) (hk : k < l.length) :
    l.take (k + 1) = l.take k ++ [l.getD k d] := by
  have h1 : l.getD k d = l[k] := List.getD_eq_getElem l d hk
  rw [List.take_succ, List.getElem?_eq_getElem hk, h1]
  rfl

/-- Epoch `k` of a run sees exactly the running best folded over the first
`k` accuracies, and emits this epoch's events. -/
theorem runTrace_getD : ∀ (accs : List Rat) (e : Nat) (b : Rat) (k : Nat),
    k < accs.length →
    (runTrace e b accs).getD k []
      = epochEvents (e + k) (recordedBest b (accs.take k)) (accs.getD k 0) := by
  intro accs
  induction accs with
  | nil => intro e b k hk; simp at hk
  | cons a accs ih =>
      intro e b k hk
      cases k with
      | zero => simp [runTrace, recordedBest]
      | succ k =>
          have hk' : k < accs.length := by simpa using hk
          rw [show runTrace e b (a :: accs)
                = epochEvents e b a :: runTrace (e + 1) (epochNewBest b a) accs from rfl]
          rw [List.getD_cons_succ, ih (e + 1) (epochNewBest b a) k hk']
          have he : e + 1 + k = e + (k + 1) := by omega
          rw [he]
          rfl

theorem recordedBest_lt_iff (a : Rat) : ∀ (l : List Rat) (b : Rat),
    recordedBest b l < a ↔ (b < a ∧ ∀ x ∈ l, x < a) := by
  intro l
  induction l with
  | nil => intro b; simp [recordedBest]
  | cons x l ih =>
      intro b
      have hnb : epochNewBest b x < a ↔ (b < a ∧ x < a) := by
        unfold epochNewBest
        split_ifs with hbx
        · exact ⟨fun hxa => ⟨lt_trans hbx hxa, hxa⟩, fun h => h.2⟩
        · push_neg at hbx
          exact ⟨fun hba => ⟨hba, lt_of_le_of_lt hbx hba⟩, fun h => h.1⟩
      rw [show recordedBest b (x :: l) = recordedBest (epochNewBest b x) l from rfl,
        ih (epochNewBest b x), hnb, List.forall_mem_cons]
      tauto

/-- A `best.pt` write occurs in an epoch's events exactly when the running
best at epoch start is strictly below that epoch's accuracy. -/
theorem writeBest_mem_iff (e : Nat) (B a : Rat) :
    (∃ cp, FsEvent.writeBest cp ∈ epochEvents e B a) ↔ B < a := by
  unfold epochEvents
  constructor
  · rintro ⟨cp, hcp⟩
    rcases List.mem_cons.mp hcp with h | h
    · simp at h
    · by_cases hlt : B < a
      · exact hlt
      · rw [if_neg hlt] at h; simp at h
  · intro hlt
    refine ⟨⟨e, B⟩, List.mem_cons_of_mem _ ?_⟩
    rw [if_pos hlt]
    exact List.mem_cons_self _ _

/-- C2: at the end of every epoch of every run, `last.pt` is written
unconditionally (with that epoch's record); `best.pt` is written iff the
epoch's validation accuracy strictly exceeds the maximum of the
resumed/initial best and all earlier epochs' accuracies; and when it is
written the recorded running best becomes the current accuracy. -/
theorem checkpoint_write_policy (e0 : Nat) (b0 : Rat) (accs : List Rat) (k : Nat)
    (hk : k < accs.length) :
    FsEvent.writeLast ⟨e0 + k, recordedBest b0 (accs.take k)⟩
        ∈ (runTrace e0 b0 accs).getD k []
    ∧ ((∃ cp, FsEvent.writeBest cp ∈ (runTrace e0 b0 accs).getD k []) ↔
        (b0 < accs.getD k 0 ∧ ∀ a ∈ accs.take k, a < accs.getD k 0))
    ∧ ((∃ cp, FsEvent.writeBest cp ∈ (runTrace e0 b0 accs).getD k []) →
        recordedBest b0 (accs.take (k + 1)) = accs.getD k 0) := by
  have hev := runTrace_getD accs e0 b0 k hk
  have hiff : (∃ cp, FsEvent.writeBest cp ∈ (runTrace e0 b0 accs).getD k []) ↔
      recordedBest b0 (accs.take k) < accs.getD k 0 := by
    rw [hev]; exact writeBest_mem_iff _ _ _
  refine ⟨?_, ?_, ?_⟩
  · rw [hev]; exact List.mem_cons_self _ _
  · rw [hiff]; exact recordedBest_lt_iff _ _ _
  · intro hex
    have hlt := hiff.mp hex
    rw [take_succ_getD accs k 0 hk, recordedBest, List.foldl_append]
    show epochNewBest (recordedBest b0 (accs.take k)) (accs.getD k 0) = accs.getD k 0
    unfold epochNewBest
    rw [if_pos hlt]

theorem checkpoint_write_policy_witness :
    FsEvent.writeLast ⟨2, (2 : Rat)⟩ ∈ (runTrace 0 0 [1, 2, 3]).getD 2 []
    ∧ recordedBest 0 ([(1 : Rat), 2, 3].take 3) = 3 := by
  have h := checkpoint_write_policy 0 0 [1, 2, 3] 2 (by decide)
  have e1 : recordedBest 0 ([(1 : Rat), 2, 3].take 2) = 2 := by decide
  refine ⟨?_, h.2.2 (h.2.1.mpr ⟨by decide, by decide⟩)⟩
  have h1 := h.1
  rw [e1] at h1
  exact h1

/-- C10: every checkpoint record written at the end of epoch `k` (the
`last.pt` record and, when present, the `best.pt` record) stores the
running best from strictly before this epoch's comparison; in particular a
`best.pt` write stores the superseded previous best, which is strictly
below the accuracy that triggered the write. -/
theorem checkpoint_records_prior_best (e0 : Nat) (b0 : Rat) (accs : List Rat) (k : Nat)
    (hk : k < accs.length) :
    (∀ cp : Checkpoint, FsEvent.writeLast cp ∈ (runTrace e0 b0 accs).getD k [] →
        cp = ⟨e0 + k, recordedBest b0 (accs.take k)⟩)
    ∧ (∀ cp : Checkpoint, FsEvent.writeBest cp ∈ (runTrace e0 b0 accs).getD k [] →
        cp.best_acc = recordedBest b0 (accs.take k)
          ∧ cp.best_acc < accs.getD k 0) := by
  have hev := runTrace_getD accs e0 b0 k hk
  rw [hev]
  unfold epochEvents
  constructor
  · intro cp hcp
    rcases List.mem_cons.mp hcp with h | h
    · simpa using h
    · split_ifs at h with hlt <;> simp at h
  · intro cp hcp
    rcases List.mem_cons.mp hcp with h | h
    · simp at h
    · split_ifs at h with hlt
      · simp only [List.mem_singleton, FsEvent.writeBest.injEq] at h
        rw [h]
        exact ⟨rfl, hlt⟩
      · simp at h

theorem checkpoint_records_prior_best_witness :
    (⟨2, (2 : Rat)⟩ : Checkpoint).best_acc = recordedBest 0 ([(1 : Rat), 2, 3].take 2)
    ∧ (⟨2, (2 : Rat)⟩ : Checkpoint).best_acc < [(1 : Rat), 2, 3].getD 2 0 :=
  (checkpoint_records_prior_best 0 0 [1, 2, 3] 2 (by decide)).2
    ⟨2, (2 : Rat)⟩ (by decide)

/-- C3: resuming from a path holding a saved checkpoint restores starting
epoch = saved epoch + 1 and best accuracy = saved best accuracy (round
trip with `saveAt`); with no checkpoint path, or a path that is not a
file, the run starts fresh at epoch 0 with best accuracy 0. -/
theorem resume_round_trip (p q : String) (fileAt : String → Option Checkpoint)
    (cp : Checkpoint) (hq : fileAt q = none) :
    resumeInit (some p) (saveAt fileAt p cp) = (cp.epoch + 1, cp.best_acc)
    ∧ resumeInit none fileAt = (0, 0)
    ∧ resumeInit (some q) fileAt = (0, 0) := by
  refine ⟨?_, rfl, ?_⟩
  · simp [resumeInit, saveAt]
  · simp [resumeInit, hq]

theorem resume_round_trip_witness :
    resumeInit (some "trained_models/best.pt")
        (saveAt (fun _ => none) "trained_models/best.pt" ⟨5, 1⟩) = (6, 1)
    ∧ resumeInit none (fun _ : String => (none : Option Checkpoint)) = (0, 0)
    ∧ resumeInit (some "missing.pt") (fun _ : String => (none : Option Checkpoint))
        = (0, 0) :=
  resume_round_trip "trained_models/best.pt" "missing.pt" (fun _ => none) ⟨5, 1⟩ rfl

theorem foldl_sched : ∀ (accs : List Rat) (b : Rat) (s : SchedState),
    (accs.foldl epochUpdate ⟨b, s⟩).sched = schedStep^[accs.length] s := by
  intro accs
  induction accs with
  | nil => intro b s; rfl
  | cons a accs ih =>
      intro b s
      rw [List.foldl_cons, List.length_cons]
      rw [show epochUpdate ⟨b, s⟩ a = ⟨epochNewBest b a, schedStep s⟩ from rfl]
      rw [ih (epochNewBest b a) (schedStep s), ← Function.iterate_succ_apply]

theorem milestone_count_succ (k : Nat) :
    milestones.countP (fun m => decide (m ≤ k + 1))
      = milestones.countP (fun m => decide (m ≤ k))
        + (if k + 1 ∈ milestones then 1 else 0) := by
  simp only [milestones, List.countP_cons, List.countP_nil, List.mem_cons,
    List.not_mem_nil, or_false, decide_eq_true_eq]
  split_ifs <;> omega

theorem schedStep_iterate (lr0 : Rat) : ∀ k : Nat,
    (schedStep^[k] (schedInit lr0)).lastEpoch = k
    ∧ (schedStep^[k] (schedInit lr0)).lr
        = lr0 * ((1 : Rat) / 10) ^ (milestones.countP (fun m => decide (m ≤ k))) := by
  intro k
  induction k with
  | zero =>
      refine ⟨rfl, ?_⟩
      rw [show milestones.countP (fun m => decide (m ≤ 0)) = 0 from by decide,
        pow_zero, mul_one]
      rfl
  | succ k ih =>
      rw [Function.iterate_succ_apply']
      refine ⟨?_, ?_⟩
      · show (schedStep _).lastEpoch = k + 1
        simp [schedStep, ih.1]
      · show (schedStep _).lr = _
        simp only [schedStep, ih.1, ih.2, milestone_count_succ k]
        by_cases hm : k + 1 ∈ milestones
        · rw [if_pos hm, if_pos hm, pow_add, pow_one]
          ring
        · rw [if_neg hm, if_neg hm, Nat.add_zero]

/-- C8: in every run (fresh or resumed alike, since line 96 constructs the
scheduler anew each run), after `k` completed epochs the scheduler has
advanced exactly `k` times regardless of the validation accuracies, and the
learning rate equals the run's initial rate times 0.1 for each milestone in
`[30, 60, 90]` that the epoch counter has crossed. -/
theorem scheduler_decay (b0 lr0 : Rat) (accs : List Rat) :
    (runState b0 lr0 accs).sched.lastEpoch = accs.length
    ∧ (runState b0 lr0 accs).sched.lr
        = lr0 * ((1 : Rat) / 10)
            ^ (milestones.countP (fun m => decide (m ≤ accs.length))) := by
  rw [runState, foldl_sched accs b0 (schedInit lr0)]
  exact schedStep_iterate lr0 accs.length

/-- C9: at run start the tensorboard directory ends up existing and empty,
whatever was in it before (any prior run's logs in it are destroyed), and
no other directory is touched. -/
theorem tensorboard_reset (fs : String → Option (List String)) (tb trained q : String)
    (hq1 : q ≠ tb) (hq2 : q ≠ trained) :
    runStartDirSetup fs tb trained tb = some []
    ∧ runStartDirSetup fs tb trained q = fs q := by
  have htb : afterMkdirTb fs tb tb = some [] := by simp [afterMkdirTb, mkdir]
  have hq : afterMkdirTb fs tb q = fs q := by
    by_cases hc : (fs tb).isSome
    · simp [afterMkdirTb, mkdir, afterRmtree, hc, rmtree, hq1]
    · simp [afterMkdirTb, mkdir, afterRmtree, hc, hq1]
  constructor
  · rw [runStartDirSetup]
    split_ifs with h
    · exact htb
    · show mkdir (afterMkdirTb fs tb) trained tb = some []
      by_cases ht : tb = trained
      · simp [mkdir, ht]
      · simp [mkdir, ht, htb]
  · rw [runStartDirSetup]
    split_ifs with h
    · exact hq
    · show mkdir (afterMkdirTb fs tb) trained q = fs q
      simp [mkdir, hq2, hq]

theorem tensorboard_reset_witness :
    runStartDirSetup (fun _ => some ["run0"]) "tensorboard" "trained_models"
        "tensorboard" = some []
    ∧ runStartDirSetup (fun _ => some ["run0"]) "tensorboard" "trained_models"
        "data" = some ["run0"] :=
  tensorboard_reset (fun _ => some ["run0"]) "tensorboard" "trained_models" "data"
    (by decide) (by decide)

theorem runConv_cons (l : Layer) (ls : List Layer) (s : Shape4) :
    runConv (l :: ls) s = (convLayerShape l s).bind (runConv ls) := by
  cases h : convLayerShape l s <;> simp [runConv, h]

theorem runConv_append : ∀ (xs ys : List Layer) (s : Shape4),
    runConv (xs ++ ys) s = (runConv xs s).bind (runConv ys) := by
  intro xs
  induction xs with
  | nil => intro ys s; simp [runConv]
  | cons l xs ih =>
      intro ys s
      rw [List.cons_append, runConv_cons, runConv_cons]
      cases h : convLayerShape l s with
      | none => rfl
      | some t => simp [ih]

theorem convLayerShape_batch (l : Layer) (s t : Shape4)
    (h : convLayerShape l s = some t) : t.batch = s.batch := by
  obtain ⟨b, c, hh, w⟩ := s
  cases l <;> simp only [convLayerShape] at h <;>
    first
      | exact Option.noConfusion h
      | rw [← Option.some.inj h]
      | (split_ifs at h <;>
          first
            | exact Option.noConfusion h
            | rw [← Option.some.inj h])

theorem runConv_batch : ∀ (ls : List Layer) (s t : Shape4),
    runConv ls s = some t → t.batch = s.batch := by
  intro ls
  induction ls with
  | nil => intro s t h; rw [← Option.some.inj h]
  | cons l ls ih =>
      intro s t h
      rw [runConv_cons] at h
      cases hc : convLayerShape l s with
      | none => rw [hc] at h; exact Option.noConfusion h
      | some u =>
          rw [hc, Option.some_bind] at h
          rw [ih u t h, convLayerShape_batch l s u hc]

theorem runConv_nil (s : Shape4) : runConv [] s = some s := rfl

/-- A conv block succeeds exactly on matching channels and spatial size at
least 6, mapping spatial size `n` to `(n - 4) / 2`. -/
theorem runConv_make_block (ic oc b c h w : Nat) :
    runConv (make_block ic oc) ⟨b, c, h, w⟩ =
      if c = ic ∧ 6 ≤ h ∧ 6 ≤ w then
        some ⟨b, oc, (h - 4) / 2, (w - 4) / 2⟩
      else none := by
  by_cases hc : c = ic
  · subst hc
    by_cases hfull : 6 ≤ h ∧ 6 ≤ w
    · obtain ⟨hh6, hw6⟩ := hfull
      have c1 : 3 ≤ h := by omega
      have c2 : 3 ≤ w := by omega
      have c3 : 3 ≤ h - 3 + 1 := by omega
      have c4 : 3 ≤ w - 3 + 1 := by omega
      have c5 : 2 ≤ h - 3 + 1 - 3 + 1 := by omega
      have c6 : 2 ≤ w - 3 + 1 - 3 + 1 := by omega
      simp only [make_block, runConv_cons, runConv_nil, convLayerShape, Option.some_bind,
        Option.none_bind, Nat.mul_zero, Nat.add_zero, c1, c2, c3, c4, c5, c6, hh6, hw6,
        eq_self_iff_true, true_and, and_self, and_true, if_true,
        Option.some.injEq, Shape4.mk.injEq]
      omega
    · by_cases h1 : 3 ≤ h ∧ 3 ≤ w
      · obtain ⟨c1, c2⟩ := h1
        by_cases h2 : 3 ≤ h - 3 + 1 ∧ 3 ≤ w - 3 + 1
        · obtain ⟨c3, c4⟩ := h2
          have hpool : ¬(2 ≤ h - 3 + 1 - 3 + 1 ∧ 2 ≤ w - 3 + 1 - 3 + 1) := by
            rcases not_and_or.mp hfull with h6 | h6 <;> omega
          simp only [make_block, runConv_cons, runConv_nil, convLayerShape, Option.some_bind,
            Option.none_bind, Nat.mul_zero, Nat.add_zero, c1, c2, c3, c4, hpool, hfull,
            eq_self_iff_true, true_and, and_self, and_true, if_true, if_false,
            iff_false, iff_true]
        · simp only [make_block, runConv_cons, runConv_nil, convLayerShape, Option.some_bind,
            Option.none_bind, Nat.mul_zero, Nat.add_zero, c1, c2, h2, hfull,
            eq_self_iff_true, true_and, and_self, and_true, if_true, if_false,
            iff_false, iff_true]
      · simp only [make_block, runConv_cons, runConv_nil, convLayerShape, Option.some_bind,
          Option.none_bind, Nat.mul_zero, Nat.add_zero, h1, hfull,
          eq_self_iff_true, true_and, and_self, and_true, if_true, if_false,
          iff_false, iff_true]
  · simp only [make_block, runConv_cons, runConv_nil, convLayerShape, Option.some_bind,
      Option.none_bind, Nat.mul_zero, Nat.add_zero, hc,
      eq_self_iff_true, true_and, and_self, and_true, if_true, if_false,
      iff_false, iff_true, false_and]

/-- The whole convolutional stack on a square RGB input of side `s`. -/
theorem runConv_all_sq (b s : Nat) :
    runConv cnnConvLayers ⟨b, 3, s, s⟩ =
      if 76 ≤ s then some ⟨b, 64, convOutSize s, convOutSize s⟩ else none := by
  by_cases h : 76 ≤ s
  · rw [if_pos h, cnnConvLayers, runConv_append, conv1, runConv_make_block,
      if_pos ⟨rfl, by omega, by omega⟩, Option.some_bind,
      runConv_append, conv2, runConv_make_block]
    rw [if_pos ⟨rfl, by omega, by omega⟩, Option.some_bind,
      runConv_append, conv3, runConv_make_block]
    rw [if_pos ⟨rfl, by omega, by omega⟩, Option.some_bind, conv4, runConv_make_block]
    rw [if_pos ⟨rfl, by omega, by omega⟩]
    rfl
  · rw [if_neg h, cnnConvLayers, runConv_append, conv1, runConv_make_block]
    by_cases h1 : 6 ≤ s
    · rw [if_pos ⟨rfl, h1, h1⟩, Option.some_bind, runConv_append, conv2,
        runConv_make_block]
      by_cases h2 : 6 ≤ (s - 4) / 2
      · rw [if_pos ⟨rfl, h2, h2⟩, Option.some_bind, runConv_append, conv3,
          runConv_make_block]
        by_cases h3 : 6 ≤ ((s - 4) / 2 - 4) / 2
        · rw [if_pos ⟨rfl, h3, h3⟩, Option.some_bind, conv4, runConv_make_block,
            if_neg (fun hcon => absurd hcon.2.1 (by omega))]
        · rw [if_neg (fun hcon => h3 hcon.2.1), Option.none_bind]
      · rw [if_neg (fun hcon => h2 hcon.2.1), Option.none_bind]
    · rw [if_neg (fun hcon => h1 hcon.2.1), Option.none_bind]

/-- The dense stack accepts exactly a flattened feature size of 5184 (the
`in_features` of `fc1`) and then outputs `num_classes` features. -/
theorem runDense_fcAll (nc b f : Nat) :
    runDense (cnnDenseLayers nc) (b, f) = if f = 5184 then some (b, nc) else none := by
  by_cases hf : f = 5184
  · subst hf
    rw [if_pos rfl]
    rfl
  · rw [if_neg hf]
    simp [cnnDenseLayers, fc1, fc2, fc3, runDense, denseLayerShape, hf]

/-- C6: whenever the forward pass succeeds on a batch of RGB inputs, the
output is a (batch, classes) matrix of logits with class dimension equal to
the constructed `num_classes` and batch dimension equal to the input batch
dimension; the network contains no probability-normalization (softmax)
layer. -/
theorem forward_output_shape (nc b h w : Nat) (out : Nat × Nat)
    (hrun : cnnForwardShape nc ⟨b, 3, h, w⟩ = some out) :
    out = (b, nc) ∧ Layer.softmax ∉ cnnLayers nc := by
  constructor
  · unfold cnnForwardShape at hrun
    cases hc : runConv cnnConvLayers ⟨b, 3, h, w⟩ with
    | none => rw [hc, Option.none_bind] at hrun; exact Option.noConfusion hrun
    | some t =>
        rw [hc, Option.some_bind, runDense_fcAll] at hrun
        split_ifs at hrun with hfeat <;>
          first
            | exact Option.noConfusion hrun
            | (have hb : t.batch = b := runConv_batch cnnConvLayers ⟨b, 3, h, w⟩ t hc
               rw [← Option.some.inj hrun, hb])
  · simp [cnnLayers, cnnConvLayers, cnnDenseLayers, conv1, conv2, conv3, conv4,
      make_block, fc1, fc2, fc3]

theorem forward_output_shape_witness :
    ((2, 10) : Nat × Nat) = (2, 10) ∧ Layer.softmax ∉ cnnLayers 10 :=
  forward_output_shape 10 2 204 204 (2, 10) (by decide)

/-- C7 counterexample: at the CLI default image size 224 the convolutional
stack yields a 64 x 10 x 10 feature map (6400 features), which `fc1`
(in_features 5184) rejects, so the first forward pass fails; at 204 (the
resolution of the model module's own self-test) it succeeds. -/
theorem default_resolution_shape_mismatch :
    cnnForwardShape 10 ⟨1, 3, 224, 224⟩ = none
    ∧ runConv cnnConvLayers ⟨1, 3, 224, 224⟩ = some ⟨1, 64, 10, 10⟩
    ∧ 64 * 10 * 10 ≠ 5184
    ∧ cnnForwardShape 10 ⟨2, 3, 204, 204⟩ = some (2, 10) :=
  ⟨by decide, by decide, by decide, by decide⟩

/-- C7 (amended): the flattened size 5184 expected by `fc1` corresponds,
through the four blocks, to square input resolutions 204 through 219 — not
to the CLI default 224 — and the first forward pass succeeds exactly for
side lengths in that range (at 204, `64 * 9 * 9 = 5184`). -/
theorem fc1_resolution_range (nc b s : Nat) :
    (cnnForwardShape nc ⟨b, 3, s, s⟩ = some (b, nc) ↔ (204 ≤ s ∧ s ≤ 219))
    ∧ 64 * convOutSize 204 * convOutSize 204 = 5184 := by
  refine ⟨?_, by decide⟩
  unfold cnnForwardShape
  rw [runConv_all_sq]
  by_cases h : 76 ≤ s
  · rw [if_pos h, Option.some_bind, runDense_fcAll]
    by_cases hf : 64 * convOutSize s * convOutSize s = 5184
    · rw [if_pos hf]
      have h9 : convOutSize s = 9 := by
        rcases Nat.lt_or_ge (convOutSize s) 9 with h' | h'
        · exfalso
          have hle : convOutSize s ≤ 8 := by omega
          have : 64 * convOutSize s * convOutSize s ≤ 64 * 8 * 8 :=
            Nat.mul_le_mul (Nat.mul_le_mul_left 64 hle) hle
          omega
        · rcases Nat.lt_or_ge 9 (convOutSize s) with h'' | h''
          · exfalso
            have hge : 10 ≤ convOutSize s := h''
            have : 64 * 10 * 10 ≤ 64 * convOutSize s * convOutSize s :=
              Nat.mul_le_mul (Nat.mul_le_mul_left 64 hge) hge
            omega
          · omega
      unfold convOutSize at h9
      constructor
      · intro _; omega
      · intro _; rfl
    · rw [if_neg hf]
      constructor
      · intro hcon; exact Option.noConfusion hcon
      · rintro ⟨hs1, hs2⟩
        exfalso
        apply hf
        have h9 : convOutSize s = 9 := by unfold convOutSize; omega
        rw [h9]
  · rw [if_neg h, Option.none_bind]
    constructor
    · intro hcon; exact Option.noConfusion hcon
    · rintro ⟨hs1, _⟩
      exfalso
      omega

end AnimalClassifying
